import Mathlib

/-!
Verification of `dev_scripts/copy_pokemon_backs.py`.

The script copies `back.png` from each immediate subdirectory of
`graphics/pokemon` into a freshly cleaned `backs/` directory, renaming the
copies `back0001.png`, `back0002.png`, …, invoking ImageMagick to upscale each
copy in place to 512×512 with nearest-neighbour (point) resampling, and writing
a caption `.txt` file next to each copy.

The embedding models the filesystem as finite association lists of named
nodes, the external environment (executable lookup and subprocess execution)
as an explicit `Env` record, and `main` as a pure function from an `FS` state
and an `Env` to a `RunResult`.  Paths are rendered relative to the project
root, since every path in the script is derived from the script's location.
-/

namespace CopyPokemonBacks

/-! ### Decimal rendering, embedding Python `f"{index:04d}"` formatting -/

/-- The ASCII character for a single decimal digit `d < 10`. -/
def digitChar (d : Nat) : Char := Char.ofNat (48 + d)

/-- Fuel-driven big-endian decimal rendering of a natural number, accumulating
digits on the right.  `fuel > n` suffices for full rendering. -/
def toDecAux : Nat → Nat → List Char → List Char
  | 0, _, acc => acc
  | fuel+1, n, acc =>
    if n < 10 then digitChar n :: acc
    else toDecAux fuel (n / 10) (digitChar (n % 10) :: acc)

/-- The decimal digit characters of `n`, most significant first. -/
def natChars (n : Nat) : List Char := toDecAux (n+1) n []

/-- Decimal string of `n`, as Python `str(n)` for a natural number. -/
def natToStr (n : Nat) : String := String.mk (natChars n)

/-- The digits of `n` left-padded with `'0'` to width 4: Python `f"{n:04d}"`. -/
def pad4 (n : Nat) : List Char := List.replicate (4 - (natChars n).length) '0' ++ natChars n

/-- Output image filename for index `i`: Python `f"back{i:04d}.png"`. -/
def destName (i : Nat) : String := String.mk ("back".data ++ pad4 i ++ ".png".data)

/-- Output caption filename for index `i`: Python `f"back{i:04d}.txt"`. -/
def txtName (i : Nat) : String := String.mk ("back".data ++ pad4 i ++ ".txt".data)

/-! Decimal parsing, used only to prove the renderings injective. -/

/-- One step of big-endian decimal accumulation. -/
def parseStep (a : Nat) (c : Char) : Nat := 10 * a + (c.toNat - 48)

/-- Value of a big-endian digit string. -/
def parseDec (cs : List Char) : Nat := cs.foldl parseStep 0

theorem digitChar_toNat : ∀ d, d < 10 → (digitChar d).toNat = 48 + d := by decide

theorem toDecAux_acc : ∀ (fuel n : Nat) (acc : List Char),
    toDecAux fuel n acc = toDecAux fuel n [] ++ acc := by
  intro fuel
  induction fuel with
  | zero => intro n acc; simp [toDecAux]
  | succ fuel ih =>
    intro n acc
    by_cases h : n < 10
    · simp [toDecAux, h]
    · simp only [toDecAux, if_neg h]
      rw [ih (n / 10) (digitChar (n % 10) :: acc), ih (n / 10) [digitChar (n % 10)]]
      simp

theorem foldl_parseStep_init : ∀ (cs : List Char) (a : Nat),
    cs.foldl parseStep a = a * 10 ^ cs.length + cs.foldl parseStep 0 := by
  intro cs
  induction cs with
  | nil => intro a; simp
  | cons c cs ih =>
    intro a
    simp only [List.foldl_cons, List.length_cons]
    rw [ih (parseStep a c), ih (parseStep 0 c)]
    simp only [parseStep]
    ring

theorem parse_toDecAux : ∀ (fuel n : Nat), n < fuel → parseDec (toDecAux fuel n []) = n := by
  intro fuel
  induction fuel with
  | zero => intro n h; omega
  | succ fuel ih =>
    intro n hn
    by_cases h : n < 10
    · simp [toDecAux, h, parseDec, parseStep, digitChar_toNat n h]
    · have h10 : 10 ≤ n := Nat.le_of_not_lt h
      have hdiv : n / 10 < n := Nat.div_lt_self (by omega) (by omega)
      have hfuel : n / 10 < fuel := by omega
      simp only [toDecAux, if_neg h]
      rw [toDecAux_acc]
      simp only [parseDec, List.foldl_append, List.foldl_cons, List.foldl_nil]
      have := ih (n / 10) hfuel
      simp only [parseDec] at this
      rw [this]
      simp only [parseStep, digitChar_toNat (n % 10) (Nat.mod_lt n (by omega))]
      omega

theorem parse_natChars (n : Nat) : parseDec (natChars n) = n :=
  parse_toDecAux (n+1) n (Nat.lt_succ_self n)

theorem foldl_parseStep_zeros : ∀ k, (List.replicate k '0').foldl parseStep 0 = 0 := by
  intro k
  induction k with
  | zero => simp
  | succ k ih => simpa [List.replicate_succ, parseStep] using ih

theorem parse_pad4 (n : Nat) : parseDec (pad4 n) = n := by
  simp only [pad4, parseDec, List.foldl_append, foldl_parseStep_zeros]
  exact parse_natChars n

theorem pad4_inj {a b : Nat} (h : pad4 a = pad4 b) : a = b := by
  rw [← parse_pad4 a, h, parse_pad4]

theorem destName_inj {a b : Nat} (h : destName a = destName b) : a = b := by
  apply pad4_inj
  have hd := congrArg String.data h
  simp only [destName] at hd
  have h1 : pad4 a ++ ".png".data = pad4 b ++ ".png".data := by
    have := hd
    rw [List.append_assoc, List.append_assoc] at this
    exact List.append_cancel_left this
  exact List.append_cancel_right h1

theorem txtName_inj {a b : Nat} (h : txtName a = txtName b) : a = b := by
  apply pad4_inj
  have hd := congrArg String.data h
  simp only [txtName] at hd
  have h1 : pad4 a ++ ".txt".data = pad4 b ++ ".txt".data := by
    have := hd
    rw [List.append_assoc, List.append_assoc] at this
    exact List.append_cancel_left this
  exact List.append_cancel_right h1

theorem destName_ne_txtName (a b : Nat) : destName a ≠ txtName b := by
  intro h
  have hd := congrArg (fun s => s.data.reverse) h
  simp only [destName, txtName, List.reverse_append] at hd
  simp at hd

/-! ### Filesystem model -/

/-- A filesystem node: a regular file with its byte content (rendered as a
string, with UTF-8 encoding left implicit), or a directory with a finite
association list of named children. -/
inductive FsTree where
  | file (content : String) : FsTree
  | dir (entries : List (String × FsTree)) : FsTree

/-- Look up a child by name in a directory's entry list. -/
def lookupEntry : List (String × FsTree) → String → Option FsTree
  | [], _ => none
  | (k, v) :: rest, name => if k = name then some v else lookupEntry rest name

/-- Write a child: overwrite the entry with this name, or append a new one.
Models creating/overwriting a file inside a directory. -/
def setEntry : List (String × FsTree) → String → FsTree → List (String × FsTree)
  | [], name, v => [(name, v)]
  | (k, w) :: rest, name, v =>
    if k = name then (name, v) :: rest else (k, w) :: setEntry rest name v

/-- Whether a node is a directory: embeds `Path.is_dir()` on an existing node. -/
def isDirTree : FsTree → Bool
  | FsTree.dir _ => true
  | FsTree.file _ => false

/-- Content of the top-level regular file `back.png` of a node, if any:
embeds `(subfolder / "back.png").is_file()` (plus reading the file for the
copy).  A nested `mega/back.png` lives under a child directory, not at this
level, so it yields `none` here. -/
def topLevelBack : FsTree → Option String
  | FsTree.dir es =>
    match lookupEntry es "back.png" with
    | some (FsTree.file c) => some c
    | _ => none
  | FsTree.file _ => none

/-- The filesystem state relevant to the script: the source directory
`graphics/pokemon` and the destination directory `backs`, each `none` when no
directory exists at that path, `some entries` when a directory with the given
children exists.  All other paths are untouched by the script and elided. -/
structure FS where
  pokemonDir : Option (List (String × FsTree))
  backsDir : Option (List (String × FsTree))

/-! ### External environment: executable lookup and subprocess execution -/

/-- The host environment: `which` embeds `shutil.which` (resolving an
executable name to a path on the search path), `run` embeds `subprocess.run`,
giving the exit status of the process with the given argv. -/
structure Env where
  which : String → Option String
  run : List String → Int

/-- Path of the source directory, relative to the project root. -/
def pokemonDirPath : String := "graphics/pokemon"

/-- Path of a file inside the destination directory, relative to the project
root: `str(backs_dir / name)`. -/
def backsPath (name : String) : String := "backs/" ++ name

/-! ### The script's constants and functions -/

/-- `TARGET_SIZE = (512, 512)` -/
def TARGET_SIZE : Nat × Nat := (512, 512)

/-- `BACK_CAPTION = "pixback creature, back view, pixel art sprite"` -/
def BACK_CAPTION : String := "pixback creature, back view, pixel art sprite"

/-- `shutil.which("magick") or shutil.which("convert")`: probe the modern
ImageMagick entry point first, then the legacy one. -/
def findMagick (env : Env) : Option String :=
  match env.which "magick" with
  | some p => some p
  | none => env.which "convert"

/-- The argv of the resize subprocess:
`[magick, str(path), "-filter", "point", "-resize", f"{w}x{h}!", str(path)]`. -/
def resizeArgv (tool path : String) (size : Nat × Nat) : List String :=
  [tool, path, "-filter", "point", "-resize", natToStr size.1 ++ "x" ++ natToStr size.2 ++ "!", path]

/-- `resize_nearest(path, size)`: returns whether the resize succeeded
(`False` when no ImageMagick executable is found, else `returncode == 0`),
paired with the trace of subprocess invocations performed (the pixel
transformation applied by the external tool is outside the model, per the
spec's scope). -/
def resize_nearest (env : Env) (path : String) (size : Nat × Nat) : Bool × List (List String) :=
  match findMagick env with
  | none => (false, [])
  | some magick =>
    let argv := resizeArgv magick path size
    (env.run argv == 0, [argv])

/-- The warning printed when a resize fails:
`f"Warning: failed to resize {dest_name} (ImageMagick installed?)"`. -/
def resizeWarning (dest_name : String) : String :=
  "Warning: failed to resize " ++ dest_name ++ " (ImageMagick installed?)"

/-- State of the copy loop: destination directory contents, next index,
copied counter, and the console / subprocess traces accumulated so far. -/
structure LoopState where
  dest : List (String × FsTree)
  index : Nat
  copied : Nat
  warnings : List String
  progress : List String
  calls : List (List String)

/-- One iteration of the `for subfolder in subfolders` loop. -/
def step (env : Env) (s : LoopState) (sub : String × FsTree) : LoopState :=
  match topLevelBack sub.2 with
  | none => s
  | some content =>
    let dest_name := destName s.index
    let dest1 := setEntry s.dest dest_name (FsTree.file content)
    let r := resize_nearest env (backsPath dest_name) TARGET_SIZE
    let warnings1 := if r.1 then s.warnings else s.warnings ++ [resizeWarning dest_name]
    let dest2 := setEntry dest1 (txtName s.index) (FsTree.file BACK_CAPTION)
    { dest := dest2
      index := s.index + 1
      copied := s.copied + 1
      warnings := warnings1
      progress := s.progress ++
        [pokemonDirPath ++ "/" ++ sub.1 ++ "/back.png -> backs/" ++ dest_name ++
          " (" ++ natToStr TARGET_SIZE.1 ++ "x" ++ natToStr TARGET_SIZE.2 ++ ")"]
      calls := s.calls ++ r.2 }

/-- Loop state at entry: destination just emptied, `index = 1`, `copied = 0`. -/
def initState : LoopState :=
  { dest := [], index := 1, copied := 0, warnings := [], progress := [], calls := [] }

/-- Clean the destination: `if backs_dir.is_dir(): shutil.rmtree(backs_dir)`
then `backs_dir.mkdir(parents=True)`.  Either way the directory exists and is
empty afterwards. -/
def cleanBacks : Option (List (String × FsTree)) → Option (List (String × FsTree))
  | some _ => some []
  | none => some []

/-- Python's `<` on strings: lexicographic comparison of the character
sequences by code point (the core library's list order on `data`, which is
also how the standard library orders `String`). -/
def strLt (a b : String) : Prop := List.lt a.data b.data

/-- Python's `<=` on strings, as used by `sorted`: not strictly greater. -/
def strLe (a b : String) : Prop := ¬ strLt b a

instance : DecidableRel strLt := fun a b => List.hasDecidableLt a.data b.data

instance : DecidableRel strLe := fun a b => inferInstanceAs (Decidable (¬ strLt b a))

theorem strLt_asymm {a b : String} (h1 : strLt a b) (h2 : strLt b a) : False := by
  rw [strLt, List.lt_iff_lex_lt] at h1 h2
  exact asymm h1 h2

theorem strLt_connected (a b c : String) (h : strLt a c) : strLt a b ∨ strLt b c := by
  rw [strLt, List.lt_iff_lex_lt] at h
  rw [strLt, List.lt_iff_lex_lt, strLt, List.lt_iff_lex_lt]
  exact IsOrderConnected.conn a.data b.data c.data h

theorem strLe_trans {a b c : String} (h1 : strLe a b) (h2 : strLe b c) : strLe a c := by
  intro h
  rcases strLt_connected c b a h with h3 | h3
  · exact h2 h3
  · exact h1 h3

theorem strLe_total (a b : String) : strLe a b ∨ strLe b a := by
  by_cases h : strLt b a
  · exact Or.inr fun h2 => strLt_asymm h2 h
  · exact Or.inl h

/-- Ordering used by `sorted(...)` on the subfolder paths: sibling paths
compare by name, by code point. -/
def nameLe (a b : String × FsTree) : Prop := strLe a.1 b.1

instance : DecidableRel nameLe := fun a b => inferInstanceAs (Decidable (strLe a.1 b.1))

instance : IsTotal (String × FsTree) nameLe := ⟨fun a b => strLe_total a.1 b.1⟩

instance : IsTrans (String × FsTree) nameLe := ⟨fun _ _ _ h h2 => strLe_trans h h2⟩

/-- The Enumerator: `sorted(p for p in pokemon_dir.iterdir() if p.is_dir())`. -/
def sortedSubs (entries : List (String × FsTree)) : List (String × FsTree) :=
  List.insertionSort nameLe (entries.filter fun e => isDirTree e.2)

/-- Result of a run: final filesystem state, exit status and console /
subprocess traces. -/
structure RunResult where
  fs : FS
  exitCode : Nat
  errors : List String
  warnings : List String
  progress : List String
  copied : Nat
  calls : List (List String)

/-- The script's `main()`, as a pure function of the filesystem state and the
host environment. -/
def mainRun (env : Env) (fs : FS) : RunResult :=
  match fs.pokemonDir with
  | none =>
    { fs := fs
      exitCode := 1
      errors := ["Error: " ++ pokemonDirPath ++ " does not exist."]
      warnings := [], progress := [], copied := 0, calls := [] }
  | some entries =>
    let backs0 := cleanBacks fs.backsDir
    let subfolders := sortedSubs entries
    let final := subfolders.foldl (step env) { initState with dest := backs0.getD [] }
    { fs := { pokemonDir := some entries, backsDir := some final.dest }
      exitCode := 0
      errors := []
      warnings := final.warnings
      progress := final.progress
      copied := final.copied
      calls := final.calls }

/-! ### Characterization of the loop -/

/-- The (name, back.png content) pairs of the entries that have a top-level
regular `back.png`, in list order. -/
def backItems (l : List (String × FsTree)) : List (String × String) :=
  l.filterMap fun e => (topLevelBack e.2).map fun c => (e.1, c)

/-- The destination entries produced by the loop for the given items,
starting at index `i`. -/
def outputsFrom : Nat → List (String × String) → List (String × FsTree)
  | _, [] => []
  | i, item :: rest =>
    (destName i, FsTree.file item.2) :: (txtName i, FsTree.file BACK_CAPTION) ::
      outputsFrom (i+1) rest

/-- The resize warnings emitted by the loop for the given items. -/
def warningsFrom (env : Env) : Nat → List (String × String) → List String
  | _, [] => []
  | i, _ :: rest =>
    (if (resize_nearest env (backsPath (destName i)) TARGET_SIZE).1 then []
      else [resizeWarning (destName i)]) ++ warningsFrom env (i+1) rest

/-- The subprocess invocations performed by the loop for the given items. -/
def callsFrom (env : Env) : Nat → List (String × String) → List (List String)
  | _, [] => []
  | i, _ :: rest =>
    (resize_nearest env (backsPath (destName i)) TARGET_SIZE).2 ++ callsFrom env (i+1) rest

/-- The filenames `back{i:04d}.png, back{i:04d}.txt, back{i+1:04d}.png, …`
for `k` consecutive indices starting at `i`. -/
def pairNames : Nat → Nat → List String
  | _, 0 => []
  | i, k+1 => destName i :: txtName i :: pairNames (i+1) k

/-- Number of immediate subdirectories of the source directory that contain a
top-level regular `back.png`. -/
def countBack (entries : List (String × FsTree)) : Nat :=
  ((entries.filter fun e => isDirTree e.2).filter fun e => (topLevelBack e.2).isSome).length

theorem lookupEntry_append_none {l1 l2 : List (String × FsTree)} {k : String}
    (h : lookupEntry l1 k = none) : lookupEntry (l1 ++ l2) k = lookupEntry l2 k := by
  induction l1 with
  | nil => rfl
  | cons e rest ih =>
    simp only [lookupEntry, List.cons_append] at h ⊢
    by_cases hk : e.1 = k
    · rw [if_pos hk] at h; exact absurd h (by simp)
    · rw [if_neg hk] at h ⊢; exact ih h

theorem setEntry_eq_append {l : List (String × FsTree)} {k : String} {v : FsTree}
    (h : lookupEntry l k = none) : setEntry l k v = l ++ [(k, v)] := by
  induction l with
  | nil => rfl
  | cons e rest ih =>
    simp only [lookupEntry, setEntry, List.cons_append] at h ⊢
    by_cases hk : e.1 = k
    · rw [if_pos hk] at h; exact absurd h (by simp)
    · rw [if_neg hk] at h ⊢; rw [ih h]

/-- All indices from `s.index` on are still unused in the destination. -/
def freshFrom (s : LoopState) : Prop :=
  ∀ j, s.index ≤ j →
    lookupEntry s.dest (destName j) = none ∧ lookupEntry s.dest (txtName j) = none

theorem foldl_step_spec (env : Env) :
    ∀ (l : List (String × FsTree)) (s : LoopState), freshFrom s →
      (l.foldl (step env) s).dest = s.dest ++ outputsFrom s.index (backItems l) ∧
      (l.foldl (step env) s).index = s.index + (backItems l).length ∧
      (l.foldl (step env) s).copied = s.copied + (backItems l).length ∧
      (l.foldl (step env) s).warnings = s.warnings ++ warningsFrom env s.index (backItems l) ∧
      (l.foldl (step env) s).calls = s.calls ++ callsFrom env s.index (backItems l) := by
  intro l
  induction l with
  | nil =>
    intro s _
    simp [backItems, outputsFrom, warningsFrom, callsFrom]
  | cons e rest ih =>
    intro s hfresh
    cases htop : topLevelBack e.2 with
    | none =>
      have hstep : step env s e = s := by simp [step, htop]
      have hitems : backItems (e :: rest) = backItems rest := by simp [backItems, htop]
      simp only [List.foldl_cons, hstep, hitems]
      exact ih s hfresh
    | some c =>
      have hdn : lookupEntry s.dest (destName s.index) = none := (hfresh s.index le_rfl).1
      have htn : lookupEntry s.dest (txtName s.index) = none := (hfresh s.index le_rfl).2
      have h1 : setEntry s.dest (destName s.index) (FsTree.file c)
          = s.dest ++ [(destName s.index, FsTree.file c)] := setEntry_eq_append hdn
      have h2 : lookupEntry (s.dest ++ [(destName s.index, FsTree.file c)])
          (txtName s.index) = none := by
        rw [lookupEntry_append_none htn]
        simp only [lookupEntry]
        rw [if_neg (destName_ne_txtName s.index s.index)]
      have hstep : step env s e =
          { dest := s.dest ++ [(destName s.index, FsTree.file c),
              (txtName s.index, FsTree.file BACK_CAPTION)]
            index := s.index + 1
            copied := s.copied + 1
            warnings := s.warnings ++
              (if (resize_nearest env (backsPath (destName s.index)) TARGET_SIZE).1 then []
                else [resizeWarning (destName s.index)])
            progress := s.progress ++
              [pokemonDirPath ++ "/" ++ e.1 ++ "/back.png -> backs/" ++ destName s.index ++
                " (" ++ natToStr TARGET_SIZE.1 ++ "x" ++ natToStr TARGET_SIZE.2 ++ ")"]
            calls := s.calls ++
              (resize_nearest env (backsPath (destName s.index)) TARGET_SIZE).2 } := by
        simp only [step, htop, h1, setEntry_eq_append h2]
        by_cases hr : (resize_nearest env (backsPath (destName s.index)) TARGET_SIZE).1 <;>
          simp [hr]
      have hfresh' : freshFrom (step env s e) := by
        rw [hstep]
        intro j hj
        simp only at hj
        have hj' : s.index ≤ j := by omega
        have hji : j ≠ s.index := by omega
        constructor
        · simp only
          rw [lookupEntry_append_none (hfresh j hj').1]
          simp only [lookupEntry]
          rw [if_neg (fun hEq => hji (destName_inj hEq).symm),
            if_neg (fun hEq => destName_ne_txtName j s.index hEq.symm)]
        · simp only
          rw [lookupEntry_append_none (hfresh j hj').2]
          simp only [lookupEntry]
          rw [if_neg (destName_ne_txtName s.index j),
            if_neg (fun hEq => hji (txtName_inj hEq).symm)]
      obtain ⟨ihd, ihi, ihc, ihw, ihcalls⟩ := ih (step env s e) hfresh'
      have hitems : backItems (e :: rest) = (e.1, c) :: backItems rest := by
        simp [backItems, htop]
      refine ⟨?_, ?_, ?_, ?_, ?_⟩
      · rw [List.foldl_cons, ihd, hstep, hitems]
        simp [outputsFrom]
      · rw [List.foldl_cons, ihi, hstep, hitems]
        simp only [List.length_cons]
        omega
      · rw [List.foldl_cons, ihc, hstep, hitems]
        simp only [List.length_cons]
        omega
      · rw [List.foldl_cons, ihw, hstep, hitems]
        simp [warningsFrom]
      · rw [List.foldl_cons, ihcalls, hstep, hitems]
        simp [callsFrom]

theorem cleanBacks_eq : ∀ b, cleanBacks b = some [] := by
  intro b; cases b <;> rfl

theorem freshFrom_initState : freshFrom initState := by
  intro j _
  exact ⟨rfl, rfl⟩

/-- Full characterization of a run on an existing source directory. -/
theorem mainRun_spec (env : Env) (fs : FS) (entries : List (String × FsTree))
    (h : fs.pokemonDir = some entries) :
    (mainRun env fs).fs.pokemonDir = some entries ∧
    (mainRun env fs).fs.backsDir = some (outputsFrom 1 (backItems (sortedSubs entries))) ∧
    (mainRun env fs).exitCode = 0 ∧
    (mainRun env fs).errors = [] ∧
    (mainRun env fs).copied = (backItems (sortedSubs entries)).length ∧
    (mainRun env fs).warnings = warningsFrom env 1 (backItems (sortedSubs entries)) ∧
    (mainRun env fs).calls = callsFrom env 1 (backItems (sortedSubs entries)) := by
  have hinit : { initState with dest := (cleanBacks fs.backsDir).getD [] } = initState := by
    rw [cleanBacks_eq fs.backsDir]; rfl
  obtain ⟨hd, hi, hc, hw, hcalls⟩ :=
    foldl_step_spec env (sortedSubs entries) initState freshFrom_initState
  refine ⟨by simp [mainRun, h], ?_, by simp [mainRun, h], by simp [mainRun, h], ?_, ?_, ?_⟩
  · simp only [mainRun, h, hinit]
    rw [hd]; rfl
  · simp only [mainRun, h, hinit]
    rw [hc]; exact Nat.zero_add _
  · simp only [mainRun, h, hinit]
    rw [hw]; rfl
  · simp only [mainRun, h, hinit]
    rw [hcalls]; rfl

theorem backItems_length (l : List (String × FsTree)) :
    (backItems l).length = (l.filter fun e => (topLevelBack e.2).isSome).length := by
  induction l with
  | nil => rfl
  | cons e rest ih =>
    cases htop : topLevelBack e.2 with
    | none => simpa [backItems, htop, List.filter_cons] using ih
    | some c => simpa [backItems, htop, List.filter_cons] using ih

theorem sortedSubs_backItems_length (entries : List (String × FsTree)) :
    (backItems (sortedSubs entries)).length = countBack entries := by
  rw [backItems_length]
  simp only [sortedSubs, countBack]
  exact ((List.perm_insertionSort nameLe _).filter _).length_eq

theorem outputsFrom_map_fst : ∀ (items : List (String × String)) (i : Nat),
    (outputsFrom i items).map Prod.fst = pairNames i items.length := by
  intro items
  induction items with
  | nil => intro i; rfl
  | cons it rest ih => intro i; simp [outputsFrom, pairNames, ih]

theorem destName_mem_pairNames_iff : ∀ (k i a : Nat),
    destName a ∈ pairNames i k ↔ (i ≤ a ∧ a < i + k) := by
  intro k
  induction k with
  | zero => intro i a; simp [pairNames]
  | succ k ih =>
    intro i a
    simp only [pairNames, List.mem_cons]
    constructor
    · rintro (h | h | h)
      · have := destName_inj h; omega
      · exact absurd h (destName_ne_txtName a i)
      · have := (ih (i+1) a).mp h; omega
    · intro hb
      by_cases ha : a = i
      · left; rw [ha]
      · right; right; exact (ih (i+1) a).mpr (by omega)

theorem txtName_mem_pairNames_iff : ∀ (k i a : Nat),
    txtName a ∈ pairNames i k ↔ (i ≤ a ∧ a < i + k) := by
  intro k
  induction k with
  | zero => intro i a; simp [pairNames]
  | succ k ih =>
    intro i a
    simp only [pairNames, List.mem_cons]
    constructor
    · rintro (h | h | h)
      · exact absurd h.symm (destName_ne_txtName i a)
      · have := txtName_inj h; omega
      · have := (ih (i+1) a).mp h; omega
    · intro hb
      by_cases ha : a = i
      · right; left; rw [ha]
      · right; right; exact (ih (i+1) a).mpr (by omega)

theorem warningsFrom_mem (env : Env) : ∀ (items : List (String × String)) (start j : Nat),
    j < items.length →
    (resize_nearest env (backsPath (destName (start + j))) TARGET_SIZE).1 = false →
    resizeWarning (destName (start + j)) ∈ warningsFrom env start items := by
  intro items
  induction items with
  | nil => intro start j hj _; simp at hj
  | cons it rest ih =>
    intro start j hj hr
    cases j with
    | zero =>
      simp only [Nat.add_zero] at hr ⊢
      simp [warningsFrom, hr]
    | succ j =>
      have harith : start + (j+1) = (start + 1) + j := by omega
      rw [harith] at hr ⊢
      exact List.mem_append_right _
        (ih (start+1) j (by simp at hj; omega) hr)

theorem callsFrom_mem (env : Env) : ∀ (items : List (String × String)) (start : Nat)
    (c : List String), c ∈ callsFrom env start items →
    ∃ tool i, findMagick env = some tool ∧
      c = resizeArgv tool (backsPath (destName i)) TARGET_SIZE := by
  intro items
  induction items with
  | nil => intro start c h; simp [callsFrom] at h
  | cons it rest ih =>
    intro start c h
    simp only [callsFrom, List.mem_append] at h
    rcases h with h | h
    · cases hm : findMagick env with
      | none => rw [resize_nearest, hm] at h; simp at h
      | some tool =>
        rw [resize_nearest, hm] at h
        simp only [List.mem_singleton] at h
        exact ⟨tool, start, rfl, h⟩
    · exact ih (start+1) c h

theorem outputsFrom_mem_shape : ∀ (items : List (String × String)) (i : Nat)
    (p : String × FsTree), p ∈ outputsFrom i items →
    (∃ j c, p = (destName j, FsTree.file c)) ∨ ∃ j, p = (txtName j, FsTree.file BACK_CAPTION) := by
  intro items
  induction items with
  | nil => intro i p h; simp [outputsFrom] at h
  | cons it rest ih =>
    intro i p h
    simp only [outputsFrom, List.mem_cons] at h
    rcases h with h | h | h
    · exact Or.inl ⟨i, it.2, h⟩
    · exact Or.inr ⟨i, h⟩
    · exact ih (i+1) p h

theorem backItems_pairwise_le {l : List (String × FsTree)} (h : List.Pairwise nameLe l) :
    List.Pairwise (fun a b : String × String => strLe a.1 b.1) (backItems l) := by
  induction l with
  | nil => constructor
  | cons e rest ih =>
    obtain ⟨he, hrest⟩ := List.pairwise_cons.mp h
    have ihr := ih hrest
    cases htop : topLevelBack e.2 with
    | none =>
      simpa [backItems, htop] using ihr
    | some c =>
      simp only [backItems, List.filterMap_cons, htop, Option.map_some']
      refine List.Pairwise.cons ?_ ihr
      intro b hb
      simp only [List.mem_filterMap] at hb
      obtain ⟨e', he', hfe⟩ := hb
      cases htop' : topLevelBack e'.2 with
      | none => rw [htop'] at hfe; simp at hfe
      | some c' =>
        rw [htop'] at hfe
        simp only [Option.map_some', Option.some.injEq] at hfe
        have hle : strLe e.1 e'.1 := he e' he'
        rw [← hfe]
        exact hle

theorem indexOf_lt_of_sorted_lt {ns : List String} (hs : List.Pairwise strLe ns)
    {a b : String} (ha : a ∈ ns) (hb : b ∈ ns) (hab : strLt a b) :
    ns.indexOf a < ns.indexOf b := by
  have hal : ns.indexOf a < ns.length := List.indexOf_lt_length.mpr ha
  have hbl : ns.indexOf b < ns.length := List.indexOf_lt_length.mpr hb
  by_contra hle
  push_neg at hle
  rcases Nat.eq_or_lt_of_le hle with heq | hlt
  · have h1 := List.indexOf_get hal
    have h2 := List.indexOf_get hbl
    have hget : ns.get ⟨ns.indexOf a, hal⟩ = ns.get ⟨ns.indexOf b, hbl⟩ := by
      congr 1
      exact Fin.ext heq.symm
    rw [h1, h2] at hget
    rw [hget] at hab
    exact strLt_asymm hab hab
  · have hrel := List.Sorted.rel_get_of_lt hs
      (show (⟨ns.indexOf b, hbl⟩ : Fin ns.length) < ⟨ns.indexOf a, hal⟩ from hlt)
    rw [List.indexOf_get hbl, List.indexOf_get hal] at hrel
    exact hrel hab

/-- Names of the subdirectories that yield output, in processing order. -/
def sortedBackNames (entries : List (String × FsTree)) : List String :=
  (backItems (sortedSubs entries)).map Prod.fst

/-- The 1-based sequential index that the loop assigns to the subdirectory
with the given name (its position in the sorted qualifying list, plus one). -/
def assignedIndex (entries : List (String × FsTree)) (name : String) : Nat :=
  (sortedBackNames entries).indexOf name + 1

theorem sortedBackNames_pairwise (entries : List (String × FsTree)) :
    List.Pairwise strLe (sortedBackNames entries) := by
  have hs : List.Pairwise nameLe (sortedSubs entries) :=
    List.sorted_insertionSort nameLe (entries.filter fun e => isDirTree e.2)
  exact List.pairwise_map.mpr (backItems_pairwise_le hs)

theorem mem_sortedBackNames {entries : List (String × FsTree)} {name : String} {t : FsTree}
    {c : String} (hmem : (name, t) ∈ entries) (hdir : isDirTree t = true)
    (hback : topLevelBack t = some c) : name ∈ sortedBackNames entries := by
  have h1 : (name, t) ∈ entries.filter (fun e => isDirTree e.2) :=
    List.mem_filter.mpr ⟨hmem, hdir⟩
  have h2 : (name, t) ∈ sortedSubs entries :=
    (List.mem_insertionSort nameLe).mpr h1
  have h3 : (name, c) ∈ backItems (sortedSubs entries) :=
    List.mem_filterMap.mpr ⟨(name, t), h2, by rw [hback]; rfl⟩
  exact List.mem_map.mpr ⟨(name, c), h3, rfl⟩

theorem sortedBackNames_length (entries : List (String × FsTree)) :
    (sortedBackNames entries).length = countBack entries := by
  rw [sortedBackNames, List.length_map]
  exact sortedSubs_backItems_length entries

/-- Unfolding of `resize_nearest` by the result of the executable probe. -/
theorem resize_nearest_eq (env : Env) (path : String) (size : Nat × Nat) :
    resize_nearest env path size =
      match findMagick env with
      | none => (false, [])
      | some t => (env.run (resizeArgv t path size) == 0, [resizeArgv t path size]) := rfl

/-! ### Concrete fixtures used by the witnesses -/

/-- A subdirectory with a top-level `back.png`. -/
def bulbasaurDir : FsTree := FsTree.dir [("back.png", FsTree.file "B")]

/-- Another subdirectory with a top-level `back.png`. -/
def charmanderDir : FsTree := FsTree.dir [("back.png", FsTree.file "C")]

/-- A subdirectory whose only `back.png` is nested under `mega/`. -/
def megaOnlyDir : FsTree := FsTree.dir [("mega", FsTree.dir [("back.png", FsTree.file "m")])]

/-- An unsorted source listing: one empty subdirectory, two with sprites. -/
def entriesEx : List (String × FsTree) :=
  [("ivysaur", FsTree.dir []), ("charmander", charmanderDir), ("bulbasaur", bulbasaurDir)]

/-- A filesystem with an existing source and stale destination contents. -/
def fsEx : FS :=
  { pokemonDir := some entriesEx, backsDir := some [("junk.txt", FsTree.file "old")] }

/-- A filesystem whose source directory is missing. -/
def fsMissing : FS :=
  { pokemonDir := none, backsDir := some [("junk.txt", FsTree.file "old")] }

/-- A host with ImageMagick installed under its modern name; resizes succeed. -/
def envOk : Env :=
  { which := fun s => if s = "magick" then some "/usr/bin/magick" else none
    run := fun _ => 0 }

/-- A host without any ImageMagick executable. -/
def envNone : Env := { which := fun _ => none, run := fun _ => 0 }

/-! ### Claims -/

/-- C1: for every run on an existing source directory, the destination
directory afterwards exists and holds exactly one `back{i:04d}.png` /
`back{i:04d}.txt` pair per immediate subdirectory with a top-level `back.png`,
with stems exactly `1..K` and no gaps, where `K` is the number of such
subdirectories. -/
theorem output_is_one_pair_per_back_subdir (env : Env) (fs : FS)
    (entries : List (String × FsTree)) (h : fs.pokemonDir = some entries) :
    (mainRun env fs).fs.backsDir.isSome = true ∧
    ((mainRun env fs).fs.backsDir.getD []).map Prod.fst = pairNames 1 (countBack entries) := by
  obtain ⟨-, hb, -, -, -, -, -⟩ := mainRun_spec env fs entries h
  rw [hb]
  refine ⟨rfl, ?_⟩
  simp only [Option.getD_some]
  rw [outputsFrom_map_fst, sortedSubs_backItems_length]

/-- Witness for C1 at a concrete filesystem: two qualifying subdirectories
yield exactly the four files `back0001.png/.txt`, `back0002.png/.txt`. -/
theorem output_is_one_pair_per_back_subdir_witness :
    ((mainRun envOk fsEx).fs.backsDir.isSome = true ∧
      ((mainRun envOk fsEx).fs.backsDir.getD []).map Prod.fst
        = pairNames 1 (countBack entriesEx)) ∧
    pairNames 1 (countBack entriesEx)
      = ["back0001.png", "back0001.txt", "back0002.png", "back0002.txt"] :=
  ⟨output_is_one_pair_per_back_subdir envOk fsEx entriesEx rfl, rfl⟩

/-- C2: a subdirectory with no top-level regular `back.png` (for instance one
holding only a nested `mega/back.png`) is skipped outright: the loop state —
destination contents, index counter, copied counter, console and subprocess
traces — is completely unchanged, so no gap can appear in the numbering. -/
theorem skip_without_toplevel_back (env : Env) (s : LoopState) (sub : String × FsTree)
    (h : topLevelBack sub.2 = none) : step env s sub = s := by
  simp [step, h]

/-- Witness for C2: a directory whose only `back.png` is nested under `mega/`
is skipped and the state is untouched. -/
theorem skip_without_toplevel_back_witness :
    topLevelBack megaOnlyDir = none ∧
    step envOk initState ("pikachu", megaOnlyDir) = initState :=
  ⟨rfl, skip_without_toplevel_back envOk initState ("pikachu", megaOnlyDir) rfl⟩

/-- C3: if subdirectories `A` and `B` both contain a top-level `back.png` and
`A`'s name precedes `B`'s in codepoint order, the loop assigns `A` a strictly
smaller sequential index, and both assigned indices name image files present
in the output. -/
theorem lex_smaller_name_gets_smaller_index (env : Env) (fs : FS)
    (entries : List (String × FsTree)) (nameA nameB : String) (tA tB : FsTree)
    (cA cB : String) (h : fs.pokemonDir = some entries)
    (hA : (nameA, tA) ∈ entries) (hAd : isDirTree tA = true) (hAb : topLevelBack tA = some cA)
    (hB : (nameB, tB) ∈ entries) (hBd : isDirTree tB = true) (hBb : topLevelBack tB = some cB)
    (hlt : strLt nameA nameB) :
    assignedIndex entries nameA < assignedIndex entries nameB ∧
    destName (assignedIndex entries nameA)
      ∈ ((mainRun env fs).fs.backsDir.getD []).map Prod.fst ∧
    destName (assignedIndex entries nameB)
      ∈ ((mainRun env fs).fs.backsDir.getD []).map Prod.fst := by
  have hmA := mem_sortedBackNames hA hAd hAb
  have hmB := mem_sortedBackNames hB hBd hBb
  have hidx := indexOf_lt_of_sorted_lt (sortedBackNames_pairwise entries) hmA hmB hlt
  obtain ⟨-, hb, -, -, -, -, -⟩ := mainRun_spec env fs entries h
  have hnames : ((mainRun env fs).fs.backsDir.getD []).map Prod.fst
      = pairNames 1 (countBack entries) := by
    rw [hb]
    simp only [Option.getD_some]
    rw [outputsFrom_map_fst, sortedSubs_backItems_length]
  have hAlen : (sortedBackNames entries).indexOf nameA < countBack entries := by
    rw [← sortedBackNames_length]
    exact List.indexOf_lt_length.mpr hmA
  have hBlen : (sortedBackNames entries).indexOf nameB < countBack entries := by
    rw [← sortedBackNames_length]
    exact List.indexOf_lt_length.mpr hmB
  refine ⟨by simp only [assignedIndex]; omega, ?_, ?_⟩
  · rw [hnames]
    exact (destName_mem_pairNames_iff _ 1 _).mpr
      ⟨by simp [assignedIndex], by simp only [assignedIndex]; omega⟩
  · rw [hnames]
    exact (destName_mem_pairNames_iff _ 1 _).mpr
      ⟨by simp [assignedIndex], by simp only [assignedIndex]; omega⟩

/-- Witness for C3: `bulbasaur` sorts before `charmander` and receives the
strictly smaller index. -/
theorem lex_smaller_name_gets_smaller_index_witness :
    assignedIndex entriesEx "bulbasaur" < assignedIndex entriesEx "charmander" ∧
    destName (assignedIndex entriesEx "bulbasaur")
      ∈ ((mainRun envOk fsEx).fs.backsDir.getD []).map Prod.fst ∧
    destName (assignedIndex entriesEx "charmander")
      ∈ ((mainRun envOk fsEx).fs.backsDir.getD []).map Prod.fst :=
  lex_smaller_name_gets_smaller_index envOk fsEx entriesEx "bulbasaur" "charmander"
    bulbasaurDir charmanderDir "B" "C" rfl
    (List.mem_cons_of_mem _ (List.mem_cons_of_mem _ (List.mem_cons_self _ _))) rfl rfl
    (List.mem_cons_of_mem _ (List.mem_cons_self _ _)) rfl rfl
    (by decide)

/-- C4: when the source directory is missing, an error line is printed, the
exit status is 1 — distinct from the normal-completion status 0 — and the
whole filesystem state, in particular the destination directory, is left
completely untouched (the existence check precedes the cleaning step). -/
theorem missing_source_leaves_dest_untouched (env : Env) (fs : FS)
    (h : fs.pokemonDir = none) :
    (mainRun env fs).fs = fs ∧
    (mainRun env fs).fs.backsDir = fs.backsDir ∧
    (mainRun env fs).exitCode = 1 ∧
    (mainRun env fs).exitCode ≠ 0 ∧
    (mainRun env fs).errors = ["Error: " ++ pokemonDirPath ++ " does not exist."] := by
  refine ⟨?_, ?_, ?_, ?_, ?_⟩ <;> simp [mainRun, h]

/-- Witness for C4: with a missing source, the stale destination survives and
the run reports failure. -/
theorem missing_source_leaves_dest_untouched_witness :
    (mainRun envOk fsMissing).fs = fsMissing ∧
    (mainRun envOk fsMissing).fs.backsDir = fsMissing.backsDir ∧
    (mainRun envOk fsMissing).exitCode = 1 ∧
    (mainRun envOk fsMissing).exitCode ≠ 0 ∧
    (mainRun envOk fsMissing).errors = ["Error: " ++ pokemonDirPath ++ " does not exist."] :=
  missing_source_leaves_dest_untouched envOk fsMissing rfl

/-- C5: cleaning the destination deletes whatever existed there and recreates
it, so right after cleaning it exists and is empty; consequently, after a full
run on an existing source every destination entry is one of the freshly
generated numbered pair files — pre-existing unrelated contents are gone. -/
theorem clean_wipes_destination (b : Option (List (String × FsTree))) (env : Env) (fs : FS) :
    cleanBacks b = some [] ∧
    (∀ entries, fs.pokemonDir = some entries →
      ∀ p, p ∈ ((mainRun env fs).fs.backsDir.getD []) →
        p.1 ∈ pairNames 1 (countBack entries)) := by
  refine ⟨cleanBacks_eq b, ?_⟩
  intro entries h p hp
  obtain ⟨-, hb, -, -, -, -, -⟩ := mainRun_spec env fs entries h
  rw [hb] at hp
  simp only [Option.getD_some] at hp
  have hmem : p.1 ∈ (outputsFrom 1 (backItems (sortedSubs entries))).map Prod.fst :=
    List.mem_map.mpr ⟨p, hp, rfl⟩
  rwa [outputsFrom_map_fst, sortedSubs_backItems_length] at hmem

/-- Witness for C5: a stale destination is reduced to `some []` by cleaning,
and an entry of the final destination carries a generated pair name. -/
theorem clean_wipes_destination_witness :
    cleanBacks (some [("junk.txt", FsTree.file "old")]) = some [] ∧
    (destName 1, FsTree.file "B").1 ∈ pairNames 1 (countBack entriesEx) := by
  have h := clean_wipes_destination (some [("junk.txt", FsTree.file "old")]) envOk fsEx
  exact ⟨h.1, h.2 entriesEx rfl (destName 1, FsTree.file "B") (List.mem_cons_self _ _)⟩

/-- C6: resize failures are not fatal: the run exits with the normal status 0
no matter what the resize environment does, the caption of every processed
item is still written, and each failed resize leaves a warning naming the
affected output file. -/
theorem resize_failure_is_nonfatal (env : Env) (fs : FS)
    (entries : List (String × FsTree)) (h : fs.pokemonDir = some entries) :
    (mainRun env fs).exitCode = 0 ∧
    (∀ i, 1 ≤ i → i ≤ countBack entries →
      txtName i ∈ ((mainRun env fs).fs.backsDir.getD []).map Prod.fst ∧
      ((resize_nearest env (backsPath (destName i)) TARGET_SIZE).1 = false →
        resizeWarning (destName i) ∈ (mainRun env fs).warnings)) := by
  obtain ⟨-, hb, he, -, -, hw, -⟩ := mainRun_spec env fs entries h
  refine ⟨he, ?_⟩
  intro i h1 h2
  have hK : (backItems (sortedSubs entries)).length = countBack entries :=
    sortedSubs_backItems_length entries
  constructor
  · rw [hb]
    simp only [Option.getD_some]
    rw [outputsFrom_map_fst, hK]
    exact (txtName_mem_pairNames_iff _ 1 i).mpr ⟨h1, by omega⟩
  · intro hr
    have harith : i = 1 + (i - 1) := by omega
    have hjlen : i - 1 < (backItems (sortedSubs entries)).length := by rw [hK]; omega
    have hm := warningsFrom_mem env (backItems (sortedSubs entries)) 1 (i-1) hjlen
      (by rw [← harith]; exact hr)
    rw [← harith] at hm
    rw [hw]
    exact hm

/-- Witness for C6: with no ImageMagick available the run still succeeds, the
caption is written, and a warning names the affected file. -/
theorem resize_failure_is_nonfatal_witness :
    (mainRun envNone fsEx).exitCode = 0 ∧
    txtName 1 ∈ ((mainRun envNone fsEx).fs.backsDir.getD []).map Prod.fst ∧
    resizeWarning (destName 1) ∈ (mainRun envNone fsEx).warnings := by
  have h := resize_failure_is_nonfatal envNone fsEx entriesEx rfl
  exact ⟨h.1, (h.2 1 (by decide) (by decide)).1, (h.2 1 (by decide) (by decide)).2 rfl⟩

/-- C7: the resize call runs `<tool> <path> -filter point -resize 512x512!
<path>` in place on the destination copy, the tool is resolved by probing
`magick` and then the legacy `convert` on the search path, and the resize is
reported successful exactly when the subprocess exits with status zero (an
absent tool counts as failure). -/
theorem resize_tool_invocation (env : Env) (path : String) :
    ((resize_nearest env path TARGET_SIZE).1 = true ↔
      ∃ tool, findMagick env = some tool ∧
        env.run [tool, path, "-filter", "point", "-resize", "512x512!", path] = 0) ∧
    (findMagick env = none → resize_nearest env path TARGET_SIZE = (false, [])) ∧
    (∀ t, env.which "magick" = some t → findMagick env = some t) ∧
    (env.which "magick" = none → findMagick env = env.which "convert") ∧
    (∀ c, c ∈ (resize_nearest env path TARGET_SIZE).2 →
      ∃ tool, findMagick env = some tool ∧
        c = [tool, path, "-filter", "point", "-resize", "512x512!", path]) := by
  have hargv : ∀ t : String, resizeArgv t path TARGET_SIZE
      = [t, path, "-filter", "point", "-resize", "512x512!", path] := fun t => rfl
  refine ⟨?_, ?_, ?_, ?_, ?_⟩
  · constructor
    · intro htrue
      cases hm : findMagick env with
      | none => rw [resize_nearest_eq, hm] at htrue; cases htrue
      | some tool =>
        rw [resize_nearest_eq, hm] at htrue
        simp only at htrue
        refine ⟨tool, rfl, ?_⟩
        rw [← hargv tool]
        exact eq_of_beq htrue
    · rintro ⟨tool, htool, hrun⟩
      rw [resize_nearest_eq, htool]
      simp only
      rw [← hargv tool] at hrun
      exact beq_iff_eq.mpr hrun
  · intro hm
    rw [resize_nearest_eq, hm]
  · intro t ht
    simp [findMagick, ht]
  · intro hm
    simp [findMagick, hm]
  · intro c hc
    cases hm : findMagick env with
    | none => rw [resize_nearest_eq, hm] at hc; simp at hc
    | some tool =>
      rw [resize_nearest_eq, hm] at hc
      simp only [List.mem_singleton] at hc
      rw [hargv tool] at hc
      exact ⟨tool, rfl, hc⟩

/-- Witness for C7: on a host with `magick` installed and succeeding, the
success report corresponds to a zero exit status of the documented argv. -/
theorem resize_tool_invocation_witness :
    ∃ tool, findMagick envOk = some tool ∧
      envOk.run [tool, "backs/back0001.png", "-filter", "point", "-resize", "512x512!",
        "backs/back0001.png"] = 0 :=
  (resize_tool_invocation envOk "backs/back0001.png").1.mp rfl

/-- C8: every entry the run writes into the destination is either an image
file `back{j:04d}.png` or a caption `back{j:04d}.txt` whose entire content is
the fixed literal `BACK_CAPTION`, and an image stem is present exactly when
its caption stem is. -/
theorem caption_files_have_fixed_content (env : Env) (fs : FS)
    (entries : List (String × FsTree)) (h : fs.pokemonDir = some entries) :
    BACK_CAPTION = "pixback creature, back view, pixel art sprite" ∧
    (∀ p, p ∈ ((mainRun env fs).fs.backsDir.getD []) →
      (∃ j c, p = (destName j, FsTree.file c)) ∨
      ∃ j, p = (txtName j, FsTree.file BACK_CAPTION)) ∧
    (∀ i, destName i ∈ ((mainRun env fs).fs.backsDir.getD []).map Prod.fst ↔
      txtName i ∈ ((mainRun env fs).fs.backsDir.getD []).map Prod.fst) := by
  obtain ⟨-, hb, -, -, -, -, -⟩ := mainRun_spec env fs entries h
  have hgetd : ((mainRun env fs).fs.backsDir.getD [])
      = outputsFrom 1 (backItems (sortedSubs entries)) := by rw [hb]; rfl
  refine ⟨rfl, ?_, ?_⟩
  · intro p hp
    rw [hgetd] at hp
    exact outputsFrom_mem_shape _ 1 p hp
  · intro i
    rw [hgetd, outputsFrom_map_fst]
    rw [destName_mem_pairNames_iff, txtName_mem_pairNames_iff]

/-- Witness for C8: the first caption entry of a concrete run carries the
fixed caption text. -/
theorem caption_files_have_fixed_content_witness :
    BACK_CAPTION = "pixback creature, back view, pixel art sprite" ∧
    ((∃ j c, ((txtName 1 : String), FsTree.file BACK_CAPTION) = (destName j, FsTree.file c)) ∨
      ∃ j, ((txtName 1 : String), FsTree.file BACK_CAPTION)
        = (txtName j, FsTree.file BACK_CAPTION)) := by
  have h := caption_files_have_fixed_content envOk fsEx entriesEx rfl
  exact ⟨h.1, h.2.1 (txtName 1, FsTree.file BACK_CAPTION)
    (List.mem_cons_of_mem _ (List.mem_cons_self _ _))⟩

/-- C9: the source tree is never written: the run leaves the source directory
exactly as it was, and every subprocess invocation it performs targets (twice,
as in-place input and output) a file inside the destination directory. -/
theorem source_is_read_only (env : Env) (fs : FS) :
    (mainRun env fs).fs.pokemonDir = fs.pokemonDir ∧
    (∀ c, c ∈ (mainRun env fs).calls → ∃ tool i, findMagick env = some tool ∧
      c = resizeArgv tool (backsPath (destName i)) TARGET_SIZE) := by
  cases hp : fs.pokemonDir with
  | none =>
    constructor
    · simp [mainRun, hp]
    · intro c hc
      simp [mainRun, hp] at hc
  | some entries =>
    obtain ⟨hpok, -, -, -, -, -, hcalls⟩ := mainRun_spec env fs entries hp
    constructor
    · exact hpok
    · intro c hc
      rw [hcalls] at hc
      exact callsFrom_mem env _ 1 c hc

/-- Witness for C9: the first recorded subprocess call of a concrete run is an
in-place resize of a file under `backs/`. -/
theorem source_is_read_only_witness :
    (mainRun envOk fsEx).fs.pokemonDir = fsEx.pokemonDir ∧
    (∃ tool i, findMagick envOk = some tool ∧
      resizeArgv "/usr/bin/magick" (backsPath (destName 1)) TARGET_SIZE
        = resizeArgv tool (backsPath (destName i)) TARGET_SIZE) := by
  have h := source_is_read_only envOk fsEx
  exact ⟨h.1, h.2 (resizeArgv "/usr/bin/magick" (backsPath (destName 1)) TARGET_SIZE)
    (List.mem_cons_self _ _)⟩

/-- C10: `copied = index - 1` holds at loop entry, is preserved by every
iteration, hence holds throughout and at the end, and the total printed in
the final summary equals the number K of produced pairs. -/
theorem copied_count_invariant (env : Env) (fs : FS) (entries : List (String × FsTree)) :
    (∀ s sub, s.index = s.copied + 1 → (step env s sub).index = (step env s sub).copied + 1) ∧
    (∀ (l : List (String × FsTree)) s, s.index = s.copied + 1 →
      (l.foldl (step env) s).index = (l.foldl (step env) s).copied + 1) ∧
    (fs.pokemonDir = some entries → (mainRun env fs).copied = countBack entries) := by
  have hstep : ∀ s sub, s.index = s.copied + 1 →
      (step env s sub).index = (step env s sub).copied + 1 := by
    intro s sub hs
    cases htop : topLevelBack sub.2 with
    | none => simpa [step, htop] using hs
    | some c => simp [step, htop, hs]
  refine ⟨hstep, ?_, ?_⟩
  · intro l
    induction l with
    | nil => intro s hs; exact hs
    | cons e rest ih => intro s hs; exact ih (step env s e) (hstep s e hs)
  · intro h
    obtain ⟨-, -, -, -, hc, -, -⟩ := mainRun_spec env fs entries h
    rw [hc, sortedSubs_backItems_length]

/-- Witness for C10: the invariant is preserved on a concrete step and the
concrete run's reported total equals its pair count. -/
theorem copied_count_invariant_witness :
    (step envOk initState ("bulbasaur", bulbasaurDir)).index
      = (step envOk initState ("bulbasaur", bulbasaurDir)).copied + 1 ∧
    (mainRun envOk fsEx).copied = countBack entriesEx := by
  have h := copied_count_invariant envOk fsEx entriesEx
  exact ⟨h.1 initState ("bulbasaur", bulbasaurDir) rfl, h.2.2 rfl⟩

end CopyPokemonBacks
